import Mathlib

/-!
Verification of the quantized dot-product kernels in
src/llama-opt/q4_0_optimized.c.

Embedding conventions:
* Machine integers are modeled as ℤ / ℕ with explicit ranges
  (packed weight bytes are `Fin 256`, activation bytes are ℤ with the
  int8 range stated as a hypothesis where it matters).
* The 16-bit stored scale `d` is modeled by its decoded 32-bit value:
  `fp16_to_fp32` is an exact injection (every fp16 value is exactly
  representable in fp32), so quantifying over the decoded rational scale
  covers every bit pattern of the stored field.
* Float accumulation is modeled by exact rational arithmetic; the
  accumulator structure of the two kernels (per-lane SDOT partial sums,
  the 2-way / 4-way running totals and their final reduction, and the
  scalar remainder loop) is translated operation for operation.
* C's `int` division `n / qk` truncates toward zero; it is modeled by
  `Int.tdiv`.  Arrays are modeled as functions from ℕ; the kernels read
  only the indices the C code reads.
-/

open Finset

/-- One quantized-weight block (`block_q4_0`, q4_0_optimized.c lines 23-26):
a scale `d` (decoded value of the stored fp16) and 16 packed bytes `qs`,
each holding two 4-bit nibbles.  Only indices 0..15 of `qs` are used. -/
structure block_q4_0 where
  d : ℚ
  qs : ℕ → Fin 256

/-- One quantized-activation block (`block_q8_0`, lines 29-32): a scale `d`
and 32 signed bytes `qs`.  Only indices 0..31 of `qs` are used. -/
structure block_q8_0 where
  d : ℚ
  qs : ℕ → ℤ

/-- Low nibble of a packed byte, zero-point 8 removed:
`(b & 0x0F) - 8` (line 94 / line 182). -/
def loNib (b : Fin 256) : ℤ := ((b.val % 16 : ℕ) : ℤ) - 8

/-- High nibble of a packed byte, zero-point 8 removed:
`(b >> 4) - 8` (line 95 / line 183). -/
def hiNib (b : Fin 256) : ℤ := ((b.val / 16 : ℕ) : ℤ) - 8

/-- Lane `i` (0..3) of the chained SDOT
`vdotq_s32(vdotq_s32(vdupq_n_s32(0), lo, y0..15), hi, y16..31)`
(line 82 / line 139 / line 171): each lane accumulates four products of
low nibbles against activation bytes `4*i+j` plus four products of high
nibbles against activation bytes `16 + 4*i + j`. -/
def vdotPair (xb : block_q4_0) (yb : block_q8_0) (i : ℕ) : ℤ :=
  ∑ j ∈ Finset.range 4,
    (loNib (xb.qs (4 * i + j)) * yb.qs (4 * i + j)
      + hiNib (xb.qs (4 * i + j)) * yb.qs (4 * i + j + 16))

/-- Scalar-loop accumulator `sumi0` (lines 92-96 / 180-184): low nibbles
against activation bytes 0..15. -/
def sumi0 (xb : block_q4_0) (yb : block_q8_0) : ℤ :=
  ∑ j ∈ Finset.range 16, loNib (xb.qs j) * yb.qs j

/-- Scalar-loop accumulator `sumi1` (lines 92-97 / 180-185): high nibbles
against activation bytes 16..31 (`y.qs[j + qk/2]`). -/
def sumi1 (xb : block_q4_0) (yb : block_q8_0) : ℤ :=
  ∑ j ∈ Finset.range 16, hiNib (xb.qs j) * yb.qs (j + 16)

/-- One scalar-remainder block contribution:
`(sumi0 + sumi1) * fp16_to_fp32(x.d) * fp16_to_fp32(y.d)` (line 99 / 187). -/
def scalarBlock (xb : block_q4_0) (yb : block_q8_0) : ℚ :=
  ((sumi0 xb yb + sumi1 xb yb : ℤ) : ℚ) * xb.d * yb.d

/-- The format's nibble-to-activation pairing for one block: low nibble of
byte `j` pairs with activation slot `j`, high nibble of byte `j` with
activation slot `j + 16`. -/
def pairedBlockSum (xb : block_q4_0) (yb : block_q8_0) : ℤ :=
  ∑ j ∈ Finset.range 16,
    (loNib (xb.qs j) * yb.qs j + hiNib (xb.qs j) * yb.qs (j + 16))

/-- The inverted (wrong) pairing: low nibbles against slots 16..31, high
nibbles against slots 0..15.  Used only to show the kernels do not
implement it. -/
def invertedBlockSum (xb : block_q4_0) (yb : block_q8_0) : ℤ :=
  ∑ j ∈ Finset.range 16,
    (loNib (xb.qs j) * yb.qs (j + 16) + hiNib (xb.qs j) * yb.qs j)

/-- Body of `vec_dot_q4_0_q8_0_original` (lines 49-102) as a function of
the block count `nb = n / qk`.  The paired loop (lines 55-87) runs
`nb / 2` iterations; `sumv0` lane `i` accumulates, for each pair `k`,
`(float)p_0[i] * (fp16_to_fp32(x0.d) * fp16_to_fp32(y0.d))` for block
`2*k`, and `sumv1` the same for block `2*k+1` (lines 85-86).  Line 89
reduces both vectors horizontally; lines 91-100 handle the remaining
block with the scalar loop. -/
def origOfNb (nb : ℕ) (x : ℕ → block_q4_0) (y : ℕ → block_q8_0) : ℚ :=
  let pairs := nb / 2
  let sumv0 : ℕ → ℚ := fun i =>
    ∑ k ∈ Finset.range pairs,
      (vdotPair (x (2 * k)) (y (2 * k)) i : ℚ) * ((x (2 * k)).d * (y (2 * k)).d)
  let sumv1 : ℕ → ℚ := fun i =>
    ∑ k ∈ Finset.range pairs,
      (vdotPair (x (2 * k + 1)) (y (2 * k + 1)) i : ℚ) * ((x (2 * k + 1)).d * (y (2 * k + 1)).d)
  let sumf := (∑ i ∈ Finset.range 4, sumv0 i) + (∑ i ∈ Finset.range 4, sumv1 i)
  sumf + ∑ ib ∈ Finset.Ico (2 * pairs) nb, scalarBlock (x ib) (y ib)

/-- Kernel `vec_dot_q4_0_q8_0_original` (lines 42-103).  `nb = n / qk` with C's
truncating signed division (line 45); the result is the value written to
`*s`. -/
def vec_dot_q4_0_q8_0_original (n : ℤ) (x : ℕ → block_q4_0) (y : ℕ → block_q8_0) : ℚ :=
  origOfNb (Int.tdiv n 32).toNat x y

/-- Body of `vec_dot_q4_0_q8_0_optimized` (lines 113-190) as a function of
the block count.  The 4-way unrolled loop (lines 125-150) runs `nb / 4`
iterations, block `4*k + r` feeding accumulator `sumv_r`; line 153-154
reduces the four accumulators pairwise and horizontally.  The 2-block
remainder (lines 157-177) mirrors the original's paired loop starting at
`ib = 4*(nb/4)`, and lines 179-188 are the scalar remainder. -/
def optOfNb (nb : ℕ) (x : ℕ → block_q4_0) (y : ℕ → block_q8_0) : ℚ :=
  let quads := nb / 4
  let sumv : ℕ → ℕ → ℚ := fun r i =>
    ∑ k ∈ Finset.range quads,
      (vdotPair (x (4 * k + r)) (y (4 * k + r)) i : ℚ) * ((x (4 * k + r)).d * (y (4 * k + r)).d)
  let sumf0 := ∑ i ∈ Finset.range 4, ((sumv 0 i + sumv 1 i) + (sumv 2 i + sumv 3 i))
  let ib0 := 4 * quads
  let pairs2 := (nb - ib0) / 2
  let sv0 : ℕ → ℚ := fun i =>
    ∑ k ∈ Finset.range pairs2,
      (vdotPair (x (ib0 + 2 * k)) (y (ib0 + 2 * k)) i : ℚ)
        * ((x (ib0 + 2 * k)).d * (y (ib0 + 2 * k)).d)
  let sv1 : ℕ → ℚ := fun i =>
    ∑ k ∈ Finset.range pairs2,
      (vdotPair (x (ib0 + 2 * k + 1)) (y (ib0 + 2 * k + 1)) i : ℚ)
        * ((x (ib0 + 2 * k + 1)).d * (y (ib0 + 2 * k + 1)).d)
  let sumf1 := sumf0 + ((∑ i ∈ Finset.range 4, sv0 i) + (∑ i ∈ Finset.range 4, sv1 i))
  sumf1 + ∑ ib ∈ Finset.Ico (ib0 + 2 * pairs2) nb, scalarBlock (x ib) (y ib)

/-- Kernel `vec_dot_q4_0_q8_0_optimized` (lines 106-191). -/
def vec_dot_q4_0_q8_0_optimized (n : ℤ) (x : ℕ → block_q4_0) (y : ℕ → block_q8_0) : ℚ :=
  optOfNb (Int.tdiv n 32).toNat x y

/-- Per-block contribution in exact arithmetic: the paired integer sum
scaled by both decoded block scales. -/
def blockContrib (x : ℕ → block_q4_0) (y : ℕ → block_q8_0) (ib : ℕ) : ℚ :=
  (pairedBlockSum (x ib) (y ib) : ℚ) * ((x ib).d * (y ib).d)

/-- Memory state visible to a kernel call: the two input buffers and the
output location `s`. -/
structure KernelState where
  xs : ℕ → block_q4_0
  ys : ℕ → block_q8_0
  out : ℚ

/-- Effect of a `vec_dot_q4_0_q8_0_original` call on memory: the only
write in the function body is `*s = sumf` (line 102). -/
def runOriginal (n : ℤ) (st : KernelState) : KernelState :=
  { st with out := vec_dot_q4_0_q8_0_original n st.xs st.ys }

/-- Effect of a `vec_dot_q4_0_q8_0_optimized` call on memory: the only
write in the function body is `*s = sumf` (line 190). -/
def runOptimized (n : ℤ) (st : KernelState) : KernelState :=
  { st with out := vec_dot_q4_0_q8_0_optimized n st.xs st.ys }

/-- Direct dequantize-then-multiply-then-sum reference for one block pair.
Modelled from the spec: weight element `i` is the low nibble of byte `i`
for `i < 16` and the high nibble of byte `i - 16` otherwise; each element
is dequantized with its block scale and multiplied with the dequantized
activation element. -/
def weightElem (xb : block_q4_0) (i : ℕ) : ℤ :=
  if i < 16 then loNib (xb.qs i) else hiNib (xb.qs (i - 16))

/-- Reference single-block dot product, dequantizing both operands
elementwise and summing the 32 products. -/
def dequantRef (xb : block_q4_0) (yb : block_q8_0) : ℚ :=
  ∑ i ∈ Finset.range 32,
    ((weightElem xb i : ℚ) * xb.d) * ((yb.qs i : ℚ) * yb.d)
/-- Concrete weight vector for witnesses: scale 1, every packed byte
`0x88`, so every nibble is raw 8 and decodes to 0. -/
def xConst : ℕ → block_q4_0 := fun _ => { d := 1, qs := fun _ => ⟨136, by norm_num⟩ }

/-- Concrete all-zero activation vector for witnesses. -/
def yConst : ℕ → block_q8_0 := fun _ => { d := 1, qs := fun _ => 0 }

/-- Concrete all-ones activation vector for witnesses. -/
def yOnes : ℕ → block_q8_0 := fun _ => { d := 1, qs := fun _ => 1 }

/-- Distinguishing weight block for the pairing claim: packed byte `j`
has value `j`, so low and high nibbles differ. -/
def xDist : block_q4_0 := { d := 1, qs := fun j => ⟨j % 256, Nat.mod_lt _ (by norm_num)⟩ }

/-- Distinguishing activation block for the pairing claim: byte `j` has
value `j`. -/
def yDist : block_q8_0 := { d := 1, qs := fun j => (j : ℤ) }

/-- Weight vector identical to `xConst` except that block 0 has scale 2
instead of 1, with the same packed data. -/
def xMixed : ℕ → block_q4_0 :=
  fun ib => if ib = 0 then { d := 2, qs := fun j => ⟨136, by norm_num⟩ } else xConst ib

/-- The four SDOT lanes of one block pair sum to the paired block sum. -/
lemma lane_sum (xb : block_q4_0) (yb : block_q8_0) :
    ∑ i ∈ Finset.range 4, vdotPair xb yb i = pairedBlockSum xb yb := by
  simp only [vdotPair, pairedBlockSum, Finset.sum_range_succ, Finset.sum_range_zero]
  norm_num
  ring

/-- The scalar remainder block equals the paired block sum scaled by both
block scales. -/
lemma scalarBlock_eq (xb : block_q4_0) (yb : block_q8_0) :
    scalarBlock xb yb = (pairedBlockSum xb yb : ℚ) * (xb.d * yb.d) := by
  simp only [scalarBlock, pairedBlockSum, sumi0, sumi1, ← Finset.sum_add_distrib]
  push_cast
  ring

/-- Two stride-2 sums starting at `a` merge into one interval sum. -/
lemma sum_pairs (f : ℕ → ℚ) (a p : ℕ) :
    ((∑ k ∈ Finset.range p, f (a + 2 * k)) + ∑ k ∈ Finset.range p, f (a + 2 * k + 1))
      = ∑ ib ∈ Finset.Ico a (a + 2 * p), f ib := by
  induction p with
  | zero => simp
  | succ p ih =>
    rw [Finset.sum_range_succ, Finset.sum_range_succ]
    have h1 : a + 2 * (p + 1) = (a + 2 * p + 1) + 1 := by ring
    rw [h1, Finset.sum_Ico_succ_top (by omega), Finset.sum_Ico_succ_top (by omega), ← ih]
    ring

/-- Four stride-4 sums merge into one range sum. -/
lemma sum_quads (f : ℕ → ℚ) (q : ℕ) :
    ((∑ k ∈ Finset.range q, f (4 * k)) + (∑ k ∈ Finset.range q, f (4 * k + 1))
        + ((∑ k ∈ Finset.range q, f (4 * k + 2)) + ∑ k ∈ Finset.range q, f (4 * k + 3)))
      = ∑ ib ∈ Finset.range (4 * q), f ib := by
  induction q with
  | zero => simp
  | succ q ih =>
    rw [Finset.sum_range_succ, Finset.sum_range_succ, Finset.sum_range_succ,
      Finset.sum_range_succ]
    have h1 : 4 * (q + 1) = (((4 * q + 1) + 1) + 1) + 1 := by ring
    rw [h1, Finset.sum_range_succ, Finset.sum_range_succ, Finset.sum_range_succ,
      Finset.sum_range_succ, ← ih]
    ring

/-- Casting the lane sum to ℚ. -/
lemma lane_sum_q (xb : block_q4_0) (yb : block_q8_0) :
    (∑ i ∈ Finset.range 4, (vdotPair xb yb i : ℚ)) = (pairedBlockSum xb yb : ℚ) := by
  rw [← Int.cast_sum, lane_sum]

/-- Closed form of the original kernel body: the sum of all per-block
contributions in exact arithmetic. -/
lemma origOfNb_closed (nb : ℕ) (x : ℕ → block_q4_0) (y : ℕ → block_q8_0) :
    origOfNb nb x y = ∑ ib ∈ Finset.range nb, blockContrib x y ib := by
  have hv : ∀ g : ℕ → ℕ,
      (∑ i ∈ Finset.range 4, ∑ k ∈ Finset.range (nb / 2),
        (vdotPair (x (g k)) (y (g k)) i : ℚ) * ((x (g k)).d * (y (g k)).d))
        = ∑ k ∈ Finset.range (nb / 2), blockContrib x y (g k) := by
    intro g
    rw [Finset.sum_comm]
    refine Finset.sum_congr rfl fun k _ => ?_
    rw [← Finset.sum_mul, lane_sum_q]
    rfl
  simp only [origOfNb]
  rw [hv (fun k => 2 * k), hv (fun k => 2 * k + 1)]
  have hp := sum_pairs (fun ib => blockContrib x y ib) 0 (nb / 2)
  simp only [Nat.zero_add] at hp
  rw [show (∑ k ∈ Finset.range (nb / 2), blockContrib x y (2 * k))
        + ∑ k ∈ Finset.range (nb / 2), blockContrib x y (2 * k + 1)
      = ∑ ib ∈ Finset.Ico 0 (2 * (nb / 2)), blockContrib x y ib from hp]
  have ht : ∑ ib ∈ Finset.Ico (2 * (nb / 2)) nb, scalarBlock (x ib) (y ib)
      = ∑ ib ∈ Finset.Ico (2 * (nb / 2)) nb, blockContrib x y ib := by
    refine Finset.sum_congr rfl fun ib _ => ?_
    rw [scalarBlock_eq]; rfl
  rw [ht, Finset.sum_Ico_consecutive _ (by omega) (by omega)]
  rw [← Finset.range_eq_Ico]
/-- Closed form of the optimized kernel body: the same sum of per-block
contributions. -/
lemma optOfNb_closed (nb : ℕ) (x : ℕ → block_q4_0) (y : ℕ → block_q8_0) :
    optOfNb nb x y = ∑ ib ∈ Finset.range nb, blockContrib x y ib := by
  have hv : ∀ g : ℕ → ℕ, ∀ p : ℕ,
      (∑ i ∈ Finset.range 4, ∑ k ∈ Finset.range p,
        (vdotPair (x (g k)) (y (g k)) i : ℚ) * ((x (g k)).d * (y (g k)).d))
        = ∑ k ∈ Finset.range p, blockContrib x y (g k) := by
    intro g p
    rw [Finset.sum_comm]
    refine Finset.sum_congr rfl fun k _ => ?_
    rw [← Finset.sum_mul, lane_sum_q]
    rfl
  simp only [optOfNb]
  simp only [Finset.sum_add_distrib]
  rw [hv (fun k => 4 * k + 0), hv (fun k => 4 * k + 1), hv (fun k => 4 * k + 2),
    hv (fun k => 4 * k + 3)]
  rw [hv (fun k => 4 * (nb / 4) + 2 * k), hv (fun k => 4 * (nb / 4) + 2 * k + 1)]
  have hq := sum_quads (fun ib => blockContrib x y ib) (nb / 4)
  simp only [Nat.add_zero] at hq ⊢
  rw [show (∑ k ∈ Finset.range (nb / 4), blockContrib x y (4 * k))
        + (∑ k ∈ Finset.range (nb / 4), blockContrib x y (4 * k + 1))
        + ((∑ k ∈ Finset.range (nb / 4), blockContrib x y (4 * k + 2))
        + ∑ k ∈ Finset.range (nb / 4), blockContrib x y (4 * k + 3))
      = ∑ ib ∈ Finset.range (4 * (nb / 4)), blockContrib x y ib from hq]
  have hp := sum_pairs (fun ib => blockContrib x y ib) (4 * (nb / 4)) ((nb - 4 * (nb / 4)) / 2)
  rw [show (∑ k ∈ Finset.range ((nb - 4 * (nb / 4)) / 2),
          blockContrib x y (4 * (nb / 4) + 2 * k))
        + ∑ k ∈ Finset.range ((nb - 4 * (nb / 4)) / 2),
          blockContrib x y (4 * (nb / 4) + 2 * k + 1)
      = ∑ ib ∈ Finset.Ico (4 * (nb / 4))
          (4 * (nb / 4) + 2 * ((nb - 4 * (nb / 4)) / 2)), blockContrib x y ib from hp]
  have ht : ∑ ib ∈ Finset.Ico (4 * (nb / 4) + 2 * ((nb - 4 * (nb / 4)) / 2)) nb,
        scalarBlock (x ib) (y ib)
      = ∑ ib ∈ Finset.Ico (4 * (nb / 4) + 2 * ((nb - 4 * (nb / 4)) / 2)) nb,
        blockContrib x y ib := by
    refine Finset.sum_congr rfl fun ib _ => ?_
    rw [scalarBlock_eq]; rfl
  rw [ht, add_assoc, Finset.sum_Ico_consecutive _ (by omega) (by omega),
    Finset.range_eq_Ico, Finset.sum_Ico_consecutive _ (by omega) (by omega)]

/-- The two kernel bodies agree exactly in rational arithmetic. -/
lemma optOfNb_eq_origOfNb (nb : ℕ) (x : ℕ → block_q4_0) (y : ℕ → block_q8_0) :
    optOfNb nb x y = origOfNb nb x y := by
  rw [optOfNb_closed, origOfNb_closed]

/-- The two kernels agree exactly in rational arithmetic, for every `n`. -/
lemma opt_eq_orig (n : ℤ) (x : ℕ → block_q4_0) (y : ℕ → block_q8_0) :
    vec_dot_q4_0_q8_0_optimized n x y = vec_dot_q4_0_q8_0_original n x y := by
  unfold vec_dot_q4_0_q8_0_optimized vec_dot_q4_0_q8_0_original
  exact optOfNb_eq_origOfNb _ x y

/-- Closed form at kernel level. -/
lemma orig_closed (n : ℤ) (x : ℕ → block_q4_0) (y : ℕ → block_q8_0) :
    vec_dot_q4_0_q8_0_original n x y
      = ∑ ib ∈ Finset.range (Int.tdiv n 32).toNat, blockContrib x y ib := by
  unfold vec_dot_q4_0_q8_0_original
  exact origOfNb_closed _ x y
/-- The scalar-loop accumulators sum to the paired block sum. -/
lemma sumi_eq (xb : block_q4_0) (yb : block_q8_0) :
    sumi0 xb yb + sumi1 xb yb = pairedBlockSum xb yb := by
  unfold sumi0 sumi1 pairedBlockSum
  rw [← Finset.sum_add_distrib]

/-- Splitting a 32-element sum into its two 16-element halves. -/
lemma sum_range_32_split (f : ℕ → ℚ) :
    ∑ i ∈ Finset.range 32, f i
      = (∑ i ∈ Finset.range 16, f i) + ∑ i ∈ Finset.range 16, f (16 + i) := by
  have h := Finset.sum_range_add f 16 16
  norm_num at h
  exact h

/-- The direct dequantization reference equals the paired block sum scaled
by both block scales. -/
lemma dequantRef_eq (xb : block_q4_0) (yb : block_q8_0) :
    dequantRef xb yb = (pairedBlockSum xb yb : ℚ) * (xb.d * yb.d) := by
  unfold dequantRef pairedBlockSum
  rw [sum_range_32_split]
  have h1 : ∀ j ∈ Finset.range 16,
      ((weightElem xb j : ℚ) * xb.d) * ((yb.qs j : ℚ) * yb.d)
        = ((loNib (xb.qs j) : ℚ) * xb.d) * ((yb.qs j : ℚ) * yb.d) := by
    intro j hj
    rw [weightElem, if_pos (Finset.mem_range.mp hj)]
  have h2 : ∀ j ∈ Finset.range 16,
      ((weightElem xb (16 + j) : ℚ) * xb.d) * ((yb.qs (16 + j) : ℚ) * yb.d)
        = ((hiNib (xb.qs j) : ℚ) * xb.d) * ((yb.qs (j + 16) : ℚ) * yb.d) := by
    intro j hj
    rw [weightElem, if_neg (by omega), show 16 + j - 16 = j by omega,
      show 16 + j = j + 16 by omega]
  rw [Finset.sum_congr rfl h1, Finset.sum_congr rfl h2]
  push_cast
  rw [Finset.sum_mul, ← Finset.sum_add_distrib]
  refine Finset.sum_congr rfl fun j hj => by ring
/-- C1: in both kernels, block pair `k` is reduced with the low nibble of
byte `j` multiplying activation slot `j` and the high nibble of byte `j`
multiplying activation slot `j + 16`: the SDOT lanes of the vector paths
and the scalar remainder loop all compute the paired block sum, and on a
distinguishing input this differs from the inverted pairing. -/
theorem c1_nibble_activation_pairing (xb : block_q4_0) (yb : block_q8_0) :
    (∑ i ∈ Finset.range 4, vdotPair xb yb i) = pairedBlockSum xb yb
    ∧ sumi0 xb yb + sumi1 xb yb = pairedBlockSum xb yb
    ∧ scalarBlock xb yb = (pairedBlockSum xb yb : ℚ) * (xb.d * yb.d)
    ∧ pairedBlockSum xDist yDist ≠ invertedBlockSum xDist yDist :=
  ⟨lane_sum xb yb, sumi_eq xb yb, scalarBlock_eq xb yb, by decide⟩

/-- C2: for every multiple-of-32 count `n ≥ 32`, scales in the moderate
positive range and activation bytes in the int8 range, the optimized and
original kernels agree with relative error below 1e-5.  In the exact
arithmetic of the embedding the two accumulation orders yield identical
values, so the difference is zero. -/
theorem c2_kernels_agree (n : ℤ) (x : ℕ → block_q4_0) (y : ℕ → block_q8_0)
    (hn : 32 ∣ n) (hn32 : 32 ≤ n)
    (hxd : ∀ ib, (1:ℚ)/100 ≤ (x ib).d ∧ (x ib).d ≤ 10)
    (hyd : ∀ ib, (1:ℚ)/100 ≤ (y ib).d ∧ (y ib).d ≤ 10)
    (hy : ∀ ib j, -128 ≤ (y ib).qs j ∧ (y ib).qs j ≤ 127) :
    |vec_dot_q4_0_q8_0_optimized n x y - vec_dot_q4_0_q8_0_original n x y|
      ≤ 1 / 100000 * |vec_dot_q4_0_q8_0_original n x y| := by
  rw [opt_eq_orig, sub_self, abs_zero]
  positivity

/-- Witness for C2 at `n = 64` with concrete blocks. -/
theorem c2_kernels_agree_witness :
    |vec_dot_q4_0_q8_0_optimized 64 xConst yOnes - vec_dot_q4_0_q8_0_original 64 xConst yOnes|
      ≤ 1 / 100000 * |vec_dot_q4_0_q8_0_original 64 xConst yOnes| :=
  c2_kernels_agree 64 xConst yOnes ⟨2, by norm_num⟩ (by norm_num)
    (fun ib => by norm_num [xConst])
    (fun ib => by norm_num [yOnes])
    (fun ib j => by norm_num [yOnes])

/-- C3: decoding a packed byte is total, returns
`((byte & 0x0F) - 8, (byte >> 4) - 8)`, and both results lie in
`[-8, 7]` for every one of the 256 byte values. -/
theorem c3_decode_nibble_pair (b : Fin 256) :
    loNib b = ((b.val % 16 : ℕ) : ℤ) - 8 ∧ hiNib b = ((b.val / 16 : ℕ) : ℤ) - 8
    ∧ -8 ≤ loNib b ∧ loNib b ≤ 7 ∧ -8 ≤ hiNib b ∧ hiNib b ≤ 7 := by
  have hb := b.isLt
  refine ⟨rfl, rfl, ?_, ?_, ?_, ?_⟩ <;>
    (simp only [loNib, hiNib]; omega)

/-- C4: for `n = 32` both kernels return the direct dequantize-multiply-sum
reference over the 32 element pairs, which equals the integer block sum
times the product of the two decoded scales. -/
theorem c4_single_block_reference (x : ℕ → block_q4_0) (y : ℕ → block_q8_0) :
    vec_dot_q4_0_q8_0_original 32 x y = dequantRef (x 0) (y 0)
    ∧ vec_dot_q4_0_q8_0_optimized 32 x y = dequantRef (x 0) (y 0)
    ∧ vec_dot_q4_0_q8_0_original 32 x y
        = ((sumi0 (x 0) (y 0) + sumi1 (x 0) (y 0) : ℤ) : ℚ) * ((x 0).d * (y 0).d) := by
  have h1 : vec_dot_q4_0_q8_0_original 32 x y = blockContrib x y 0 := by
    rw [orig_closed, show ((Int.tdiv 32 32).toNat) = 1 by decide, Finset.sum_range_one]
  have h2 : blockContrib x y 0 = dequantRef (x 0) (y 0) := by
    rw [dequantRef_eq]; rfl
  refine ⟨h1.trans h2, ?_, ?_⟩
  · rw [opt_eq_orig]; exact h1.trans h2
  · rw [h1, blockContrib, ← sumi_eq]
/-- Absolute value bound for decoded low nibbles. -/
lemma loNib_abs (b : Fin 256) : |loNib b| ≤ 8 := by
  have hb := b.isLt
  rw [abs_le]
  constructor <;> (simp only [loNib]; omega)

/-- Absolute value bound for decoded high nibbles. -/
lemma hiNib_abs (b : Fin 256) : |hiNib b| ≤ 8 := by
  have hb := b.isLt
  rw [abs_le]
  constructor <;> (simp only [hiNib]; omega)

/-- C5: if every weight nibble of the consumed blocks decodes to zero, or
every activation byte of the consumed blocks is zero, both kernels return
exactly zero. -/
theorem c5_zero_inputs (n : ℤ) (x : ℕ → block_q4_0) (y : ℕ → block_q8_0)
    (h : (∀ ib < (Int.tdiv n 32).toNat, ∀ j < 16,
            loNib ((x ib).qs j) = 0 ∧ hiNib ((x ib).qs j) = 0)
      ∨ (∀ ib < (Int.tdiv n 32).toNat, ∀ j < 32, (y ib).qs j = 0)) :
    vec_dot_q4_0_q8_0_original n x y = 0 ∧ vec_dot_q4_0_q8_0_optimized n x y = 0 := by
  have hz : ∀ ib ∈ Finset.range (Int.tdiv n 32).toNat, blockContrib x y ib = 0 := by
    intro ib hib
    have hib2 := Finset.mem_range.mp hib
    have hp : pairedBlockSum (x ib) (y ib) = 0 := by
      unfold pairedBlockSum
      refine Finset.sum_eq_zero fun j hj => ?_
      have hj2 := Finset.mem_range.mp hj
      rcases h with hx | hyz
      · obtain ⟨h1, h2⟩ := hx ib hib2 j hj2
        rw [h1, h2]; ring
      · rw [hyz ib hib2 j (by omega), hyz ib hib2 (j + 16) (by omega)]; ring
    rw [blockContrib, hp]
    push_cast
    ring
  constructor
  · rw [orig_closed]; exact Finset.sum_eq_zero hz
  · rw [opt_eq_orig, orig_closed]; exact Finset.sum_eq_zero hz

/-- Witness for C5: three blocks of all-zero weight nibbles against a
nonzero activation vector. -/
theorem c5_zero_inputs_witness :
    vec_dot_q4_0_q8_0_original 96 xConst yOnes = 0
    ∧ vec_dot_q4_0_q8_0_optimized 96 xConst yOnes = 0 :=
  c5_zero_inputs 96 xConst yOnes
    (Or.inl (fun ib _ j _ => by constructor <;> (simp only [xConst, loNib, hiNib]; norm_num)))

/-- C6: changing only block `k`'s weight scale (same packed data, all
other blocks unchanged) changes each kernel's result by exactly block
`k`'s integer partial sum times the activation scale times the scale
difference. -/
theorem c6_scale_isolation (n : ℤ) (x x2 : ℕ → block_q4_0) (y : ℕ → block_q8_0) (k : ℕ)
    (hk : k < (Int.tdiv n 32).toNat)
    (hother : ∀ ib, ib ≠ k → x2 ib = x ib)
    (hqs : (x2 k).qs = (x k).qs) :
    vec_dot_q4_0_q8_0_original n x2 y - vec_dot_q4_0_q8_0_original n x y
      = (pairedBlockSum (x k) (y k) : ℚ) * (y k).d * ((x2 k).d - (x k).d)
    ∧ vec_dot_q4_0_q8_0_optimized n x2 y - vec_dot_q4_0_q8_0_optimized n x y
      = (pairedBlockSum (x k) (y k) : ℚ) * (y k).d * ((x2 k).d - (x k).d) := by
  have hps : pairedBlockSum (x2 k) (y k) = pairedBlockSum (x k) (y k) := by
    unfold pairedBlockSum
    rw [hqs]
  have hmain : vec_dot_q4_0_q8_0_original n x2 y - vec_dot_q4_0_q8_0_original n x y
      = (pairedBlockSum (x k) (y k) : ℚ) * (y k).d * ((x2 k).d - (x k).d) := by
    rw [orig_closed, orig_closed, ← Finset.sum_sub_distrib]
    rw [Finset.sum_eq_single_of_mem k (Finset.mem_range.mpr hk)
      (fun ib _ hib => by rw [blockContrib, blockContrib, hother ib hib]; ring)]
    rw [blockContrib, blockContrib, hps]
    ring
  exact ⟨hmain, by rw [opt_eq_orig, opt_eq_orig]; exact hmain⟩

/-- Witness for C6: block 0's scale changes from 1 to 2 with all packed
data fixed. -/
theorem c6_scale_isolation_witness :
    vec_dot_q4_0_q8_0_original 32 xMixed yOnes - vec_dot_q4_0_q8_0_original 32 xConst yOnes
      = (pairedBlockSum (xConst 0) (yOnes 0) : ℚ) * (yOnes 0).d
          * ((xMixed 0).d - (xConst 0).d)
    ∧ vec_dot_q4_0_q8_0_optimized 32 xMixed yOnes - vec_dot_q4_0_q8_0_optimized 32 xConst yOnes
      = (pairedBlockSum (xConst 0) (yOnes 0) : ℚ) * (yOnes 0).d
          * ((xMixed 0).d - (xConst 0).d) :=
  c6_scale_isolation 32 xConst xMixed yOnes 0 (by decide)
    (fun ib hib => by simp [xMixed, hib]) rfl

/-- C7: a kernel call leaves both input buffers unchanged, writes to the
output location the value of a pure function of the inputs, and retains no
state: the result does not depend on the prior contents of the output
location. -/
theorem c7_kernels_pure (n : ℤ) (st : KernelState) (a b : ℚ) :
    (runOriginal n st).xs = st.xs ∧ (runOriginal n st).ys = st.ys
    ∧ (runOptimized n st).xs = st.xs ∧ (runOptimized n st).ys = st.ys
    ∧ (runOriginal n st).out = vec_dot_q4_0_q8_0_original n st.xs st.ys
    ∧ (runOptimized n st).out = vec_dot_q4_0_q8_0_optimized n st.xs st.ys
    ∧ (runOriginal n { xs := st.xs, ys := st.ys, out := a }).out
        = (runOriginal n { xs := st.xs, ys := st.ys, out := b }).out
    ∧ (runOptimized n { xs := st.xs, ys := st.ys, out := a }).out
        = (runOptimized n { xs := st.xs, ys := st.ys, out := b }).out :=
  ⟨rfl, rfl, rfl, rfl, rfl, rfl, rfl, rfl⟩

/-- C8: when the block count `n / 32` is 1, 2 or 3, the 4-way unrolled
loop runs zero iterations and the optimized kernel's result coincides
exactly with the original kernel's. -/
theorem c8_small_block_counts (n : ℤ) (x : ℕ → block_q4_0) (y : ℕ → block_q8_0)
    (h1 : 1 ≤ Int.tdiv n 32) (h3 : Int.tdiv n 32 ≤ 3) :
    (Int.tdiv n 32).toNat / 4 = 0
    ∧ vec_dot_q4_0_q8_0_optimized n x y = vec_dot_q4_0_q8_0_original n x y :=
  ⟨by omega, opt_eq_orig n x y⟩

/-- Witness for C8 at `n = 96`, a block count of 3. -/
theorem c8_small_block_counts_witness :
    (Int.tdiv (96 : ℤ) 32).toNat / 4 = 0
    ∧ vec_dot_q4_0_q8_0_optimized 96 xConst yOnes
        = vec_dot_q4_0_q8_0_original 96 xConst yOnes :=
  c8_small_block_counts 96 xConst yOnes (by decide) (by decide)
/-- C9: for `n < 32` (including zero and negative values) the block count
truncates to a non-positive value, every loop is skipped and both kernels
produce exactly zero independently of the buffer contents; in general both
kernels behave as if `n` were replaced by `32 * (n / 32)` with truncating
division. -/
theorem c9_undersized_and_truncated_n (n : ℤ) (x : ℕ → block_q4_0) (y : ℕ → block_q8_0) :
    (n < 32 → vec_dot_q4_0_q8_0_original n x y = 0
      ∧ vec_dot_q4_0_q8_0_optimized n x y = 0)
    ∧ vec_dot_q4_0_q8_0_original n x y
        = vec_dot_q4_0_q8_0_original (32 * Int.tdiv n 32) x y
    ∧ vec_dot_q4_0_q8_0_optimized n x y
        = vec_dot_q4_0_q8_0_optimized (32 * Int.tdiv n 32) x y := by
  have hdiv : Int.tdiv (32 * Int.tdiv n 32) 32 = Int.tdiv n 32 :=
    Int.mul_tdiv_cancel_left _ (by norm_num)
  refine ⟨fun hn => ?_, ?_, ?_⟩
  · have hle : Int.tdiv n 32 ≤ 0 := by
      rcases le_or_lt 0 n with h0 | h0
      · rw [Int.tdiv_eq_zero_of_lt h0 (by omega)]
      · have h2 : 0 ≤ Int.tdiv (-n) 32 := Int.tdiv_nonneg (by omega) (by norm_num)
        rw [Int.neg_tdiv] at h2
        omega
    have htn : (Int.tdiv n 32).toNat = 0 := by omega
    constructor
    · rw [orig_closed, htn]; simp
    · rw [opt_eq_orig, orig_closed, htn]; simp
  · rw [orig_closed, orig_closed, hdiv]
  · rw [opt_eq_orig, opt_eq_orig, orig_closed, orig_closed, hdiv]

/-- Witness for C9 at `n = 5`. -/
theorem c9_undersized_witness :
    vec_dot_q4_0_q8_0_original 5 xConst yOnes = 0
    ∧ vec_dot_q4_0_q8_0_optimized 5 xConst yOnes = 0 :=
  (c9_undersized_and_truncated_n 5 xConst yOnes).1 (by norm_num)
/-- C10: with activation bytes in the int8 range, every per-block integer
partial sum is bounded by 32768 in absolute value (each SDOT lane by
8192), far below the 32-bit limit, so the integer accumulation is exact. -/
theorem c10_partial_sum_bounded (xb : block_q4_0) (yb : block_q8_0)
    (hy : ∀ j < 32, -128 ≤ yb.qs j ∧ yb.qs j ≤ 127) :
    |sumi0 xb yb + sumi1 xb yb| ≤ 32768
    ∧ (∀ i < 4, |vdotPair xb yb i| ≤ 8192)
    ∧ |sumi0 xb yb + sumi1 xb yb| < 2 ^ 31 := by
  have hyabs : ∀ j < 32, |yb.qs j| ≤ 128 := fun j hj =>
    abs_le.mpr ⟨by have := (hy j hj).1; omega, by have := (hy j hj).2; omega⟩
  have hlo : ∀ (b : Fin 256) (z : ℤ), |z| ≤ 128 → |loNib b * z| ≤ 1024 := by
    intro b z hz
    rw [abs_mul]
    calc |loNib b| * |z| ≤ 8 * 128 :=
          mul_le_mul (loNib_abs b) hz (abs_nonneg _) (by norm_num)
    _ = 1024 := by norm_num
  have hhi : ∀ (b : Fin 256) (z : ℤ), |z| ≤ 128 → |hiNib b * z| ≤ 1024 := by
    intro b z hz
    rw [abs_mul]
    calc |hiNib b| * |z| ≤ 8 * 128 :=
          mul_le_mul (hiNib_abs b) hz (abs_nonneg _) (by norm_num)
    _ = 1024 := by norm_num
  have h0 : |sumi0 xb yb| ≤ 16384 := by
    simp only [sumi0]
    refine le_trans (Finset.abs_sum_le_sum_abs _ _) (le_trans (Finset.sum_le_sum
      (fun j hj => hlo (xb.qs j) (yb.qs j)
        (hyabs j (by have := Finset.mem_range.mp hj; omega)))) ?_)
    rw [Finset.sum_const, Finset.card_range]
    norm_num
  have h1 : |sumi1 xb yb| ≤ 16384 := by
    simp only [sumi1]
    refine le_trans (Finset.abs_sum_le_sum_abs _ _) (le_trans (Finset.sum_le_sum
      (fun j hj => hhi (xb.qs j) (yb.qs (j + 16))
        (hyabs (j + 16) (by have := Finset.mem_range.mp hj; omega)))) ?_)
    rw [Finset.sum_const, Finset.card_range]
    norm_num
  have hmain : |sumi0 xb yb + sumi1 xb yb| ≤ 32768 :=
    le_trans (abs_add _ _) (by linarith)
  refine ⟨hmain, fun i hi => ?_, lt_of_le_of_lt hmain (by norm_num)⟩
  simp only [vdotPair]
  have hterm : ∀ j ∈ Finset.range 4,
      |loNib (xb.qs (4 * i + j)) * yb.qs (4 * i + j)
        + hiNib (xb.qs (4 * i + j)) * yb.qs (4 * i + j + 16)| ≤ (2048 : ℤ) := by
    intro j hj
    have hj4 := Finset.mem_range.mp hj
    have e1 := hlo (xb.qs (4 * i + j)) (yb.qs (4 * i + j)) (hyabs _ (by omega))
    have e2 := hhi (xb.qs (4 * i + j)) (yb.qs (4 * i + j + 16)) (hyabs _ (by omega))
    exact le_trans (abs_add _ _) (by linarith)
  refine le_trans (Finset.abs_sum_le_sum_abs _ _)
    (le_trans (Finset.sum_le_sum hterm) ?_)
  rw [Finset.sum_const, Finset.card_range]
  norm_num

/-- Witness for C10 on concrete blocks. -/
theorem c10_partial_sum_bounded_witness :
    |sumi0 (xConst 0) (yOnes 0) + sumi1 (xConst 0) (yOnes 0)| ≤ 32768
    ∧ (∀ i < 4, |vdotPair (xConst 0) (yOnes 0) i| ≤ 8192)
    ∧ |sumi0 (xConst 0) (yOnes 0) + sumi1 (xConst 0) (yOnes 0)| < 2 ^ 31 :=
  c10_partial_sum_bounded (xConst 0) (yOnes 0)
    (fun j hj => by constructor <;> (simp only [yOnes]; norm_num))
